import Mathlib

/-!
# Verification of the denobio content/asset pipeline

Shallow embedding of the repository's core logic:

* `src/repositories/content.repo.ts` — `parseContent`, `processMeta`,
  `loadContents` (split on `%%split%%`, trim, strip fence lines, YAML-parse,
  sort by `createdAt`, index by `slug` in a JS `Map`).
* `src/utils/cache.ts` — `asset`, `loadHashkey` (hash-key path rewriting).
* `src/main.tsx` — the `onFound` static-file callback (cache-control header).
* the build script — `getFileHash` (SHA-256, hex, truncate).
* `src/pages/index.tsx` — `IndexPage`'s listing loop (divider placement).

JavaScript strings are modelled as `List Char`; the JS string operations used
by the source (`split`, `trim`, `join`, `includes`, `slice`, `padStart`) are
given executable structural definitions matching JS semantics for the
arguments the source uses.
-/

/-- A JavaScript string, modelled as a list of characters. -/
abbrev Str := List Char

/-- Whitespace predicate used by `trim` (covers space, tab, CR, LF). -/
def isWs (c : Char) : Bool := c.isWhitespace

/-- JS `String.prototype.trim()`: remove leading and trailing whitespace. -/
def jsTrim (s : Str) : Str :=
  ((s.dropWhile isWs).reverse.dropWhile isWs).reverse

/-- Helper for splitting: prepend a character to the first piece. -/
def consHead (c : Char) : List Str → List Str
  | [] => [[c]]
  | p :: ps => (c :: p) :: ps

/-- JS `String.prototype.split(sep)` for a single-character separator. -/
def splitChar (sep : Char) : Str → List Str
  | [] => [[]]
  | c :: cs =>
    if c = sep then [] :: splitChar sep cs
    else consHead c (splitChar sep cs)

/-- Worker for `jsSplit`: scans left to right; `skip` counts characters of a
matched separator occurrence that remain to be consumed. -/
def jsSplitGo (sep : Str) : Str → Nat → List Str
  | [], _ => [[]]
  | _ :: cs, k + 1 => jsSplitGo sep cs k
  | c :: cs, 0 =>
    if sep.isPrefixOf (c :: cs) then
      [] :: jsSplitGo sep cs (sep.length - 1)
    else
      consHead c (jsSplitGo sep cs 0)

/-- JS `String.prototype.split(sep)` for a non-empty string separator
(left-to-right, non-overlapping matches).  For the empty separator JS splits
into single characters; the source only ever splits on non-empty separators. -/
def jsSplit (sep : Str) (s : Str) : List Str :=
  match sep with
  | [] => s.map (fun c => [c])
  | _ :: _ => jsSplitGo sep s 0

/-- JS `Array.prototype.join(sep)`. -/
def jsJoin (sep : Str) : List Str → Str
  | [] => []
  | [p] => p
  | p :: ps => p ++ sep ++ jsJoin sep ps

theorem splitChar_ne_nil (sep : Char) (s : Str) : splitChar sep s ≠ [] := by
  induction s with
  | nil => simp [splitChar]
  | cons c cs ih =>
    simp only [splitChar]
    split
    · simp
    · cases h : splitChar sep cs with
      | nil => exact absurd h ih
      | cons p ps => simp [consHead]

theorem jsSplitGo_ne_nil (sep s : Str) (k : Nat) : jsSplitGo sep s k ≠ [] := by
  induction s generalizing k with
  | nil => simp [jsSplitGo]
  | cons c cs ih =>
    match k with
    | k + 1 => simpa [jsSplitGo] using ih k
    | 0 =>
      simp only [jsSplitGo]
      split
      · simp
      · cases h : jsSplitGo sep cs 0 with
        | nil => exact absurd h (ih 0)
        | cons p ps => simp [consHead]

/-! ## Content repository (`src/repositories/content.repo.ts`) -/

/-- A YAML scalar or sequence value, as produced by the external YAML
collaborator for the front-matter fields of this repository. -/
inductive Yval where
  | str : Str → Yval
  | seq : List Str → Yval
deriving DecidableEq

/-- The external YAML collaborator (`parse` from the std YAML library):
a function from text to either an error or a mapping. -/
abbrev YamlParser := Str → Except Str (List (Str × Yval))

/-- JS property access on the object obtained by spreading the parsed
mapping: `undefined` (here `none`) when the key is absent. -/
def yLookup (m : List (Str × Yval)) (k : Str) : Option Yval :=
  (m.find? (fun p => p.1 = k)).map Prod.snd

/-- The `Content` interface of `content.repo.ts` as it exists at runtime:
`parseContent` spreads whatever mapping the YAML parser returned, so every
declared field may in fact be absent (`undefined`, modelled as `none`). -/
structure ContentItem where
  title : Option Yval
  slug : Option Yval
  short : Option Yval
  createdAt : Option Yval
  updatedAt : Option Yval
  tags : Option Yval
  content : Option Str
deriving DecidableEq

/-- The constant `DELIMITER = "%%split%%"`. -/
def DELIMITER : Str := "%%split%%".toList

/-- The function `processMeta`: split on newlines, drop the first and last line
(`lines.slice(1, lines.length - 1)`), rejoin. -/
def processMeta (rawMeta : Str) : Str :=
  let lines := splitChar '\n' rawMeta
  jsJoin ['\n'] ((lines.drop 1).take (lines.length - 2))

/-- The pieces of `content.split(DELIMITER).map((s) => s.trim())`. -/
def splitPieces (s : Str) : List Str :=
  (jsSplit DELIMITER s).map jsTrim

/-- The object `{...parsedMeta, content: body}`: the runtime item built from the parsed
mapping and the (possibly `undefined`) body piece. -/
def mkItem (m : List (Str × Yval)) (body : Option Str) : ContentItem where
  title := yLookup m "title".toList
  slug := yLookup m "slug".toList
  short := yLookup m "short".toList
  createdAt := yLookup m "createdAt".toList
  updatedAt := yLookup m "updatedAt".toList
  tags := yLookup m "tags".toList
  content := body

/-- The function `parseContent` from `content.repo.ts`:
`const [meta, body] = content.split(DELIMITER).map((s) => s.trim())`
followed by `parse(processMeta(meta))` and `{...parsedMeta, content: body}`.
The split of a string is never empty, so `meta` is always defined; `body` is
`undefined` when the delimiter is absent.  A YAML failure propagates. -/
def parseContent (yaml : YamlParser) (content : Str) : Except Str ContentItem :=
  let pieces := splitPieces content
  match yaml (processMeta (pieces.headD [])) with
  | .error e => .error e
  | .ok m => .ok (mkItem m (pieces.get? 1))

/-- The parse loop of `loadContents`: parse every file, aborting on the
first failure (the thrown exception propagates out of the loop). -/
def parseAll (yaml : YamlParser) : List Str → Except Str (List ContentItem)
  | [] => .ok []
  | f :: fs =>
    match parseContent yaml f with
    | .error e => .error e
    | .ok it =>
      match parseAll yaml fs with
      | .error e => .error e
      | .ok its => .ok (it :: its)

/-- The sort comparator `(a, b) => new Date(a.createdAt) - new Date(b.createdAt)`,
expressed through an abstract date valuation `dv` standing for the external
`Date` collaborator's `getTime` (a total function on the stored values). -/
def sortKey (dv : Option Yval → Int) (a b : ContentItem) : Bool :=
  dv a.createdAt ≤ dv b.createdAt

/-- JS `Map.prototype.set` on an insertion-ordered association list: an
existing key keeps its original position and gets the new value; a fresh key
is appended. -/
def mapSet (m : List (Option Yval × ContentItem)) (k : Option Yval)
    (v : ContentItem) : List (Option Yval × ContentItem) :=
  if m.any (fun p => p.1 = k) then
    m.map (fun p => if p.1 = k then (k, v) else p)
  else
    m ++ [(k, v)]

/-- JS `Map.prototype.get`. -/
def mapGet (m : List (Option Yval × ContentItem)) (k : Option Yval) :
    Option ContentItem :=
  (m.find? (fun p => p.1 = k)).map Prod.snd

/-- The indexing loop of `loadContents`: `contentMap.set(content.slug, content)`
over the sorted items, starting from the empty map. -/
def buildIndex (items : List ContentItem) : List (Option Yval × ContentItem) :=
  items.foldl (fun m it => mapSet m it.slug it) []

/-- Steps 5–6 of `loadContents`: sort ascending by the date value of
`createdAt` (JS `Array.prototype.sort` is stable mergesort), then build the
slug-keyed insertion-ordered map. -/
def sortAndIndex (dv : Option Yval → Int) (items : List ContentItem) :
    List (Option Yval × ContentItem) :=
  buildIndex (items.mergeSort (sortKey dv))

/-- The function `loadContents` over a given list of file texts: parse each file
(fail-fast), sort, index.  Reading the directory is I/O and is taken as the
given `files` list. -/
def loadContents (yaml : YamlParser) (dv : Option Yval → Int)
    (files : List Str) : Except Str (List (Option Yval × ContentItem)) :=
  match parseAll yaml files with
  | .error e => .error e
  | .ok items => .ok (sortAndIndex dv items)

/-! ## Asset cache-key provider (`src/utils/cache.ts`, `src/main.tsx`,
and the build script) -/

/-- The function `asset(path)` from `cache.ts`.  `if (!hashKey) return path` is JS
falsiness: both an unset key (`none`) and an empty key string pass the guard.
Otherwise `const [ext, ...rest] = path.split(".").reverse()` and
`[ext, hashKey, ...rest].reverse().join(".")`.  A split is never empty, so
the `[]` branch of the inner match is unreachable. -/
def asset (hashKey : Option Str) (p : Str) : Str :=
  match hashKey with
  | none => p
  | some k =>
    if k.isEmpty then p
    else
      match (splitChar '.' p).reverse with
      | [] => p
      | ext :: rest => jsJoin ['.'] ((ext :: k :: rest).reverse)

/-- The function `loadHashkey` from `cache.ts`: if the key file does not exist the
process-wide key stays `undefined`; otherwise the key is the file text with
`.trim()` applied. -/
def loadHashkey (keyFileExists : Bool) (fileText : Str) : Option Str :=
  if keyFileExists then some (jsTrim fileText) else none

/-- JS `hay.includes(needle)`: plain substring test. -/
def strIncludes (hay needle : Str) : Bool :=
  match hay with
  | [] => needle.isEmpty
  | _ :: t => needle.isPrefixOf hay || strIncludes t needle

/-- The `onFound` callback of the static-file route in `main.tsx`: with no
(or an empty, hence falsy) hash key no header is set; otherwise the header
value is set exactly when `filePath.includes(hashKey)`.  Returns the
`Cache-Control` value attached to the response, if any. -/
def onFound (hashKey : Option Str) (filePath : Str) : Option Str :=
  match hashKey with
  | none => none
  | some hk =>
    if hk.isEmpty then none
    else if strIncludes filePath hk then
      some ("max-age=31536000; immutable".toList)
    else none

/-- The 16 lowercase hexadecimal digit characters, in value order. -/
def hexAlphabet : Str := "0123456789abcdef".toList

/-- Digit character for a value below 16 (as produced by JS
`Number.prototype.toString(16)`). -/
def hexDigitChar (n : Nat) : Char := hexAlphabet.getD n '0'

/-- JS `b.toString(16)` for a non-negative integer: lowercase base-16 digits,
no padding. -/
def natHex (n : Nat) : Str :=
  if _h : n < 16 then [hexDigitChar n]
  else natHex (n / 16) ++ [hexDigitChar (n % 16)]
decreasing_by exact Nat.div_lt_self (by omega) (by omega)

/-- JS `s.padStart(2, "0")`. -/
def padStart2 (s : Str) : Str :=
  List.replicate (2 - s.length) '0' ++ s

/-- One byte of the digest as rendered by the build script:
`b.toString(16).padStart(2, "0")`. -/
def byteToHex (b : Fin 256) : Str := padStart2 (natHex b.val)

/-- The function `getFileHash` from the build script: digest the bytes (the SHA-256
primitive of the platform is an abstract byte function `digest`), render each
digest byte as two lowercase hex characters, join, and `slice(0, length)`. -/
def getFileHash (digest : List (Fin 256) → List (Fin 256))
    (file : List (Fin 256)) (len : Nat) : Str :=
  (((digest file).map byteToHex).flatten).take len

/-- Specification-side definition of the lowercase hex encoding of a byte
sequence: each byte contributes its high then low hex digit.  Stated from
the spec's words ("hex-encodes it") to compare with the build script's
`map`/`padStart`/`join` rendering. -/
def lowerHexPairs (bytes : List (Fin 256)) : Str :=
  bytes.flatMap (fun b => [hexDigitChar (b.val / 16), hexDigitChar (b.val % 16)])

/-! ## Listing renderer (`src/pages/index.tsx`) -/

/-- One node of the rendered listing: an article entry or a visual divider
(`<div class="divider my-0">`). -/
inductive RNode where
  | entry : ContentItem → RNode
  | divider : RNode
deriving DecidableEq

/-- The listing loop of `IndexPage`: for each item emit its entry block and,
when `index < arr.length - 1`, a divider. -/
def renderListing (cs : List ContentItem) : List RNode :=
  ((cs.enum).map (fun p =>
    RNode.entry p.2 :: (if p.1 < cs.length - 1 then [RNode.divider] else []))).flatten

/-! ## Concrete models of the external collaborators -/

/-- Parse one `key: value` line into a mapping entry. -/
def yamlLine (line : Str) : Except Str (Str × Yval) :=
  match splitChar ':' line with
  | [] => .error line
  | [_] => .error line
  | key :: rest => .ok (key, Yval.str (jsTrim (jsJoin [':'] rest)))

/-- Modelled from the spec: the external YAML collaborator (`parse` from the
std YAML library, not part of this repository), restricted to the flat
scalar mappings the spec describes ("parse the remaining lines as YAML into
a mapping with keys matching the ContentItem fields"): every non-blank line
is a `key: value` pair. -/
def yamlLines (s : Str) : Except Str (List (Str × Yval)) :=
  ((splitChar '\n' s).filter (fun l => !(jsTrim l).isEmpty)).foldr
    (fun line acc =>
      match yamlLine line, acc with
      | .ok p, .ok ps => .ok (p :: ps)
      | .error e, _ => .error e
      | _, .error e => .error e)
    (.ok [])

/-- Fold the decimal digits of a string into a number, ignoring other
characters. -/
def digitsVal (s : Str) : Nat :=
  s.foldl (fun acc c => if c.isDigit then acc * 10 + (c.toNat - 48) else acc) 0

/-- Modelled from the spec: the external `Date` collaborator's `getTime` on
the ISO-8601 timestamps of `createdAt` ("createdAt must parse to a valid
date for sort comparison"), restricted to UTC timestamps compared by their
`YYYY-MM-DD` date part; `digitsVal` of that part is order-isomorphic to the
epoch value, which is all the sort comparator observes. -/
def dvModel : Option Yval → Int
  | some (Yval.str s) => (digitsVal (s.take 10) : Int)
  | _ => 0

/-! ## Lemmas about the string model -/

theorem consHead_append (c : Char) (l l2 : List Str) (h : l ≠ []) :
    consHead c (l ++ l2) = consHead c l ++ l2 := by
  cases l with
  | nil => exact absurd rfl h
  | cons p ps => simp [consHead]

theorem splitChar_of_not_mem {sep : Char} {s : Str} (h : sep ∉ s) :
    splitChar sep s = [s] := by
  induction s with
  | nil => rfl
  | cons c cs ih =>
    simp only [List.mem_cons, not_or] at h
    simp [splitChar, Ne.symm h.1, ih h.2, consHead]

theorem splitChar_append_last {sep : Char} {ext : Str} (pre : Str)
    (h : sep ∉ ext) :
    splitChar sep (pre ++ sep :: ext) = splitChar sep pre ++ [ext] := by
  induction pre with
  | nil => simp [splitChar, splitChar_of_not_mem h]
  | cons c pre' ih =>
    by_cases hc : c = sep
    · simp [splitChar, hc, ih]
    · simp only [List.cons_append, splitChar, hc, if_false, List.append_eq]
      rw [ih]
      exact consHead_append c _ _ (splitChar_ne_nil sep pre')

theorem jsJoin_splitChar (sep : Char) (s : Str) :
    jsJoin [sep] (splitChar sep s) = s := by
  induction s with
  | nil => rfl
  | cons c cs ih =>
    by_cases hc : c = sep
    · cases hr : splitChar sep cs with
      | nil => exact absurd hr (splitChar_ne_nil sep cs)
      | cons x xs =>
        rw [hr] at ih
        simp [splitChar, hc, hr, jsJoin, ih]
    · cases hr : splitChar sep cs with
      | nil => exact absurd hr (splitChar_ne_nil sep cs)
      | cons x xs =>
        rw [hr] at ih
        cases xs with
        | nil => simp_all [splitChar, consHead, jsJoin]
        | cons y ys => simp_all [splitChar, consHead, jsJoin]

theorem jsJoin_append_two (sep a b : Str) (l : List Str) (h : l ≠ []) :
    jsJoin sep (l ++ [a, b]) =
      jsJoin sep l ++ sep ++ a ++ sep ++ b := by
  induction l with
  | nil => exact absurd rfl h
  | cons x l' ih =>
    cases l' with
    | nil => simp [jsJoin]
    | cons y ys =>
      have h2 := ih (by simp)
      simp only [List.cons_append, jsJoin, List.append_eq] at h2 ⊢
      rw [h2]
      simp [List.append_assoc]

theorem asset_some_eq {k p : Str} (hk : k ≠ []) {init : List Str}
    {lastSeg : Str} (h : splitChar '.' p = init ++ [lastSeg]) :
    asset (some k) p = jsJoin ['.'] (init ++ [k, lastSeg]) := by
  have hke : k.isEmpty = false := by
    cases k with
    | nil => exact absurd rfl hk
    | cons a l => rfl
  simp only [asset, hke, Bool.false_eq_true, if_false, h, List.reverse_append,
    List.reverse_cons, List.reverse_nil, List.nil_append, List.singleton_append]
  simp [List.append_assoc]

/-! ## Claim theorems -/

/-- C2: with no hash key loaded, `asset` is the identity; with a (non-empty)
hash key `k` loaded, the path is split on `.`, `k` is inserted as the
second-to-last segment — immediately before the final extension — and the
segments are rejoined with `.`; in particular a path `dir/name.ext` (final
extension free of dots) becomes `dir/name.k.ext`. -/
theorem asset_path_rewriting (k : Str) (hk : k ≠ []) :
    (∀ p, asset none p = p) ∧
    (∀ p init lastSeg, splitChar '.' p = init ++ [lastSeg] →
      asset (some k) p = jsJoin ['.'] (init ++ [k, lastSeg])) ∧
    (∀ pre ext, '.' ∉ ext →
      asset (some k) (pre ++ '.' :: ext) = pre ++ '.' :: (k ++ '.' :: ext)) := by
  refine ⟨fun p => rfl, fun p init lastSeg h => asset_some_eq hk h, ?_⟩
  intro pre ext hext
  rw [asset_some_eq hk (splitChar_append_last pre hext),
    jsJoin_append_two ['.'] k ext _ (splitChar_ne_nil '.' pre),
    jsJoin_splitChar]
  simp [List.append_assoc]

/-- Witness for C2: `asset("/style.css")` is unchanged with no key and
becomes `"/style.abc123.css"` with key `"abc123"`. -/
theorem asset_path_rewriting_inst :
    "abc123".toList ≠ [] ∧
    asset none "/style.css".toList = "/style.css".toList ∧
    asset (some "abc123".toList) "/style.css".toList =
      "/style.abc123.css".toList := by
  have h := asset_path_rewriting "abc123".toList (by decide)
  refine ⟨by decide, h.1 _, ?_⟩
  have h3 := h.2.2 "/style".toList "css".toList (by decide)
  have e1 : "/style.css".toList = "/style".toList ++ '.' :: "css".toList := by
    decide
  rw [e1, h3]
  decide

/-- C9 (implicit): for a path containing no `.`, a loaded (non-empty) hash
key `k` makes `asset` return `k ++ "." ++ path` — the key is prepended with a
dot separator — so the path is neither rejected nor passed through
unchanged. -/
theorem asset_dotless_prepends (k p : Str) (hk : k ≠ []) (hp : '.' ∉ p) :
    asset (some k) p = k ++ '.' :: p ∧ asset (some k) p ≠ p := by
  have hsplit : splitChar '.' p = [] ++ [p] := by
    simpa using splitChar_of_not_mem hp
  have h1 := asset_some_eq hk hsplit
  constructor
  · rw [h1]; simp [jsJoin]
  · rw [h1]
    intro hcontra
    have hlen := congrArg List.length hcontra
    simp [jsJoin] at hlen
    omega

/-- Witness for C9: `asset("style")` with key `"abc123"` is
`"abc123.style"`. -/
theorem asset_dotless_prepends_inst :
    "abc123".toList ≠ [] ∧ '.' ∉ "style".toList ∧
    asset (some "abc123".toList) "style".toList = "abc123.style".toList := by
  refine ⟨by decide, by decide, ?_⟩
  have h :=
    (asset_dotless_prepends "abc123".toList "style".toList (by decide)
      (by decide)).1
  rw [h]; decide

/-- C3 (code bug): when the loaded hash key occurs as a substring of the
served file's path, `onFound` does attach a Cache-Control header by the
plain substring test, but its value is `"max-age=31536000; immutable"` —
with a semicolon, not the comma-separated directive list
`"max-age=31536000, immutable"` that the claim (and RFC 9111 Cache-Control
syntax) states; with no loaded key, or the key not a substring, no header is
attached. -/
theorem onFound_semicolon_header :
    onFound (some "abc123".toList) "/style.abc123.css".toList =
      some ("max-age=31536000; immutable".toList) ∧
    "max-age=31536000; immutable".toList ≠
      "max-age=31536000, immutable".toList ∧
    onFound none "/style.abc123.css".toList = none ∧
    onFound (some "abc123".toList) "/style.css".toList = none := by
  decide

/-- C10 (implicit): the hash key loaded at start-up is the key file's text
with leading and trailing whitespace removed: `loadHashkey` yields exactly
`jsTrim` of the text (and `none` when the file is absent), the text
decomposes as whitespace ++ key ++ whitespace, and the key itself neither
starts nor ends with whitespace — so a trailing newline or surrounding
spaces never reach `asset` or the substring check of `onFound`. -/
theorem loadHashkey_trims (t : Str) :
    loadHashkey true t = some (jsTrim t) ∧
    loadHashkey false t = none ∧
    (∃ pre suf, t = pre ++ jsTrim t ++ suf ∧ pre.all isWs ∧ suf.all isWs) ∧
    (∀ c, (jsTrim t).head? = some c → isWs c = false) ∧
    (∀ c, (jsTrim t).getLast? = some c → isWs c = false) := by
  refine ⟨rfl, rfl, ?_, ?_, ?_⟩
  · refine ⟨t.takeWhile isWs,
      ((t.dropWhile isWs).reverse.takeWhile isWs).reverse, ?_, ?_, ?_⟩
    · rw [List.append_assoc]
      conv_lhs => rw [← List.takeWhile_append_dropWhile (p := isWs) (l := t)]
      congr 1
      conv_lhs => rw [← List.reverse_reverse (t.dropWhile isWs),
        ← List.takeWhile_append_dropWhile (p := isWs)
          (l := (t.dropWhile isWs).reverse)]
      rw [List.reverse_append]
      rfl
    · simp only [List.all_eq_true]
      exact fun x hx => List.mem_takeWhile_imp hx
    · simp only [List.all_eq_true]
      intro x hx
      rw [List.mem_reverse] at hx
      exact List.mem_takeWhile_imp hx
  · intro c hc
    have hx : (List.dropWhile isWs (t.dropWhile isWs).reverse).getLast?
        = some c := by
      unfold jsTrim at hc
      rwa [List.head?_reverse] at hc
    have hmid : (t.dropWhile isWs).head? = some c := by
      conv_lhs => rw [← List.getLast?_reverse (t.dropWhile isWs),
        ← List.takeWhile_append_dropWhile (p := isWs)
          (l := (t.dropWhile isWs).reverse)]
      rw [List.getLast?_append, hx]
      rfl
    have hd := List.head?_dropWhile_not isWs t
    rw [hmid] at hd
    exact hd
  · intro c hc
    have hx : (List.dropWhile isWs (t.dropWhile isWs).reverse).head?
        = some c := by
      unfold jsTrim at hc
      rwa [List.getLast?_reverse] at hc
    have hd := List.head?_dropWhile_not isWs (t.dropWhile isWs).reverse
    rw [hx] at hd
    exact hd

/-- Witness for C10: a key file reading `" abc123\n"` loads as `"abc123"`,
whose first character is not whitespace. -/
theorem loadHashkey_trims_inst :
    loadHashkey true (" abc123\n".toList) = some ("abc123".toList) ∧
    isWs 'a' = false := by
  constructor
  · have h := (loadHashkey_trims (" abc123\n".toList)).1
    rw [h]
    decide
  · exact (loadHashkey_trims (" abc123\n".toList)).2.2.2.1 'a' (by decide)

theorem renderAux (total : Nat) (cs : List ContentItem) :
    ∀ j, j + cs.length = total →
    ((List.enumFrom j cs).map (fun p =>
        RNode.entry p.2 :: (if p.1 < total - 1 then [RNode.divider] else []))).flatten
      = List.intersperse RNode.divider (cs.map RNode.entry) := by
  induction cs with
  | nil => intro j h; rfl
  | cons c cs' ih =>
    intro j h
    rw [List.enumFrom_cons]
    simp only [List.map_cons, List.flatten_cons]
    cases cs' with
    | nil =>
      have hnlt : ¬ (j < total - 1) := by simp at h; omega
      simp [hnlt, List.intersperse]
    | cons c2 t =>
      have hlt : j < total - 1 := by simp at h; omega
      rw [ih (j + 1) (by simp at h ⊢; omega)]
      simp [hlt, List.intersperse_cons_cons]

/-- C8: the listing loop of `IndexPage` interleaves exactly one divider
between consecutive entries and none after the last, so the output is the
entries interspersed with dividers and the divider count is `N - 1` for `N`
items (and `0` for `N = 0`, by truncated subtraction). -/
theorem renderListing_dividers (cs : List ContentItem) :
    renderListing cs = List.intersperse RNode.divider (cs.map RNode.entry) ∧
    List.count RNode.divider (renderListing cs) = cs.length - 1 := by
  have h1 : renderListing cs
      = List.intersperse RNode.divider (cs.map RNode.entry) := by
    unfold renderListing
    have h0 := renderAux cs.length cs 0 (by simp)
    simpa [List.enum] using h0
  refine ⟨h1, ?_⟩
  rw [h1]
  clear h1
  induction cs with
  | nil => simp
  | cons c t ih =>
    cases t with
    | nil => simp [List.intersperse]
    | cons c2 t2 =>
      rw [List.map_cons, List.map_cons, List.intersperse_cons_cons]
      simp only [List.map_cons] at ih
      simp [List.count_cons] at ih ⊢
      omega

theorem natHex_of_lt {n : Nat} (h : n < 16) : natHex n = [hexDigitChar n] := by
  rw [natHex]
  simp [h]

theorem natHex_of_ge {n : Nat} (h : 16 ≤ n) :
    natHex n = natHex (n / 16) ++ [hexDigitChar (n % 16)] := by
  rw [natHex]
  simp [Nat.not_lt.2 h]

theorem byteToHex_pairs (b : Fin 256) :
    byteToHex b = [hexDigitChar (b.val / 16), hexDigitChar (b.val % 16)] := by
  unfold byteToHex
  by_cases h : b.val < 16
  · rw [natHex_of_lt h]
    have h0 : b.val / 16 = 0 := Nat.div_eq_of_lt h
    have h1 : b.val % 16 = b.val := Nat.mod_eq_of_lt h
    rw [h0, h1]
    rfl
  · have h16 : 16 ≤ b.val := Nat.not_lt.1 h
    have hdiv : b.val / 16 < 16 := by
      have := b.isLt
      omega
    rw [natHex_of_ge h16, natHex_of_lt hdiv]
    simp [padStart2]

theorem hexEncode_eq_pairs (bytes : List (Fin 256)) :
    (bytes.map byteToHex).flatten = lowerHexPairs bytes := by
  induction bytes with
  | nil => rfl
  | cons b bs ih =>
    simp only [List.map_cons, List.flatten_cons, lowerHexPairs,
      List.flatMap_cons, ih, byteToHex_pairs]

/-- C7: the build script's hash is the first `len` characters (the script's
default is 6) of the lowercase hexadecimal encoding of the digest the
SHA-256 platform primitive returns for the file's bytes: the
`map`/`padStart`/`join`/`slice` pipeline equals `take len` of the two
lowercase hex digits of each digest byte; all output characters are
lowercase hex digits; and identical input bytes give the identical hash
string (the whole pipeline is a pure function of the bytes). -/
theorem getFileHash_hex_take (digest : List (Fin 256) → List (Fin 256))
    (file : List (Fin 256)) (len : Nat) :
    getFileHash digest file len = (lowerHexPairs (digest file)).take len ∧
    (∀ c ∈ getFileHash digest file len, c ∈ hexAlphabet) ∧
    (∀ file2, file = file2 →
      getFileHash digest file len = getFileHash digest file2 len) := by
  refine ⟨by unfold getFileHash; rw [hexEncode_eq_pairs], ?_,
    fun f2 h => by rw [h]⟩
  intro c hc
  unfold getFileHash at hc
  have hc' : c ∈ ((digest file).map byteToHex).flatten :=
    List.mem_of_mem_take hc
  rw [hexEncode_eq_pairs] at hc'
  unfold lowerHexPairs at hc'
  rw [List.mem_flatMap] at hc'
  obtain ⟨b, _, hcb⟩ := hc'
  have hmem : ∀ m, m < 16 → hexDigitChar m ∈ hexAlphabet := by decide
  have hb := b.isLt
  simp only [List.mem_cons, List.not_mem_nil, or_false] at hcb
  rcases hcb with h | h
  · exact h ▸ hmem _ (by omega)
  · exact h ▸ hmem _ (by omega)

/-- Witness for C7: the digest byte `0xab` renders as `"ab"`, and equal
byte lists give equal hashes. -/
theorem getFileHash_hex_take_inst :
    getFileHash (fun l => l) [(171 : Fin 256)] 6 = "ab".toList ∧
    getFileHash (fun l => l) [(171 : Fin 256)] 6 =
      getFileHash (fun l => l) [(171 : Fin 256)] 6 := by
  constructor
  · rw [(getFileHash_hex_take (fun l => l) [(171 : Fin 256)] 6).1]
    decide
  · exact (getFileHash_hex_take (fun l => l) [(171 : Fin 256)] 6).2.2 _ rfl

theorem jsSplitGo_of_not_includes {sep s : Str}
    (h : strIncludes s sep = false) : jsSplitGo sep s 0 = [s] := by
  induction s with
  | nil => rfl
  | cons c cs ih =>
    simp only [strIncludes, Bool.or_eq_false_iff] at h
    simp only [jsSplitGo, h.1, Bool.false_eq_true, if_false]
    rw [ih h.2]
    rfl

theorem jsSplit_DELIMITER (s : Str) :
    jsSplit DELIMITER s = jsSplitGo DELIMITER s 0 := rfl

/-- C1 (amended): `parseContent` performs no delimiter validation and the
code defines no `MalformedContentError`.  When the file does not contain
`%%split%%`, the destructured body is `undefined` and the whole trimmed text,
minus its first and last lines, is handed to the YAML collaborator: if the
collaborator succeeds, `parseContent` succeeds with an item whose `content`
field is `undefined` (a partial item, not a failure); `parseContent` fails
exactly when the collaborator fails, propagating its error — and, being a
pure function of the file text, it behaves the same on every run. -/
theorem parseContent_missing_delimiter_behavior (yaml : YamlParser) (s : Str)
    (h : strIncludes s DELIMITER = false) :
    (∀ m, yaml (processMeta (jsTrim s)) = .ok m →
      parseContent yaml s = .ok (mkItem m none)) ∧
    (∀ e, yaml (processMeta (jsTrim s)) = .error e →
      parseContent yaml s = .error e) := by
  have hp : splitPieces s = [jsTrim s] := by
    unfold splitPieces
    rw [jsSplit_DELIMITER, jsSplitGo_of_not_includes h]
    rfl
  constructor
  · intro m hm
    unfold parseContent
    rw [hp]
    simp [hm]
  · intro e he
    unfold parseContent
    rw [hp]
    simp [he]

/-- Witness for C1 (amended): the delimiter-free file `"f\ntitle: x\ng"`
makes the modelled YAML collaborator succeed, and `parseContent` returns the
partial item. -/
theorem parseContent_missing_delimiter_behavior_inst :
    strIncludes "f\ntitle: x\ng".toList DELIMITER = false ∧
    parseContent yamlLines "f\ntitle: x\ng".toList =
      .ok (mkItem [("title".toList, Yval.str "x".toList)] none) := by
  refine ⟨by decide, ?_⟩
  exact (parseContent_missing_delimiter_behavior yamlLines
    "f\ntitle: x\ng".toList (by decide)).1 _ rfl

/-- C1 (counterexample): a concrete file with no `%%split%%` delimiter on
which `parseContent` does not fail at all — no `MalformedContentError`, no
error of any kind — but instead returns a partial `ContentItem` whose
`content` field is `undefined`. -/
theorem parseContent_missing_delimiter_no_error :
    parseContent yamlLines "f\ntitle: x\ng".toList =
      .ok (mkItem [("title".toList, Yval.str "x".toList)] none) ∧
    (mkItem [("title".toList, Yval.str "x".toList)] none).content = none := by
  exact ⟨rfl, rfl⟩

/-- C5 (amended): `parseContent` performs no required-field validation and
the code defines no `ContentParseError`: for a well-delimited file whose
metadata block YAML-parses to a mapping missing the required `slug` field,
the parse step does not fail — it returns an item whose `slug` is
`undefined` (and likewise for any other missing field, since every field of
the result is a plain lookup in the parsed mapping). -/
theorem parseContent_no_field_validation (yaml : YamlParser)
    (s rawMeta rawBody : Str) (m : List (Str × Yval))
    (hsplit : jsSplit DELIMITER s = [rawMeta, rawBody])
    (hyaml : yaml (processMeta (jsTrim rawMeta)) = .ok m)
    (hmiss : yLookup m "slug".toList = none) :
    parseContent yaml s = .ok (mkItem m (some (jsTrim rawBody))) ∧
    (mkItem m (some (jsTrim rawBody))).slug = none := by
  have hp : splitPieces s = [jsTrim rawMeta, jsTrim rawBody] := by
    unfold splitPieces
    rw [hsplit]
    rfl
  constructor
  · unfold parseContent
    rw [hp]
    simp [hyaml]
  · simp only [mkItem]
    exact hmiss

/-- Witness for C5 (amended): a concrete well-delimited file whose metadata
carries only `title`. -/
theorem parseContent_no_field_validation_inst :
    parseContent yamlLines "x\ntitle: a\ny\n%%split%%\nbody".toList =
      .ok (mkItem [("title".toList, Yval.str "a".toList)]
        (some "body".toList)) := by
  exact (parseContent_no_field_validation yamlLines
    "x\ntitle: a\ny\n%%split%%\nbody".toList
    "x\ntitle: a\ny\n".toList "\nbody".toList
    [("title".toList, Yval.str "a".toList)]
    (by decide) rfl (by decide)).1

/-- C5 (counterexample): a concrete well-delimited file whose metadata block
is missing `slug`, `short`, `createdAt`, `updatedAt` and `tags`: the parse
step does not fail, it constructs a `ContentItem` lacking those fields. -/
theorem parseContent_missing_slug_is_ok :
    parseContent yamlLines "x\ntitle: a\ny\n%%split%%\nbody".toList =
      .ok (mkItem [("title".toList, Yval.str "a".toList)]
        (some "body".toList)) ∧
    (mkItem [("title".toList, Yval.str "a".toList)]
      (some "body".toList)).slug = none ∧
    (mkItem [("title".toList, Yval.str "a".toList)]
      (some "body".toList)).createdAt = none := by
  exact ⟨rfl, rfl, rfl⟩

theorem bool_eq_false {b : Bool} (h : ¬ b = true) : b = false := by
  cases b
  · rfl
  · exact absurd rfl h

theorem mapSet_fresh (m : List (Option Yval × ContentItem)) (k : Option Yval)
    (v : ContentItem) (h : ∀ p ∈ m, p.1 ≠ k) :
    mapSet m k v = m ++ [(k, v)] := by
  have ha : m.any (fun p => p.1 = k) = false := by
    rw [List.any_eq_false]
    intro x hx
    simp [h x hx]
  simp [mapSet, ha]

theorem find?_map_replace (m : List (Option Yval × ContentItem))
    (k : Option Yval) (v : ContentItem)
    (h : m.any (fun p => p.1 = k) = true) :
    (m.map (fun p => if p.1 = k then (k, v) else p)).find?
      (fun q => q.1 = k) = some (k, v) := by
  induction m with
  | nil => simp at h
  | cons p ps ih =>
    rw [List.map_cons]
    by_cases hp : p.1 = k
    · rw [if_pos hp, List.find?_cons_of_pos _ (by simp)]
    · rw [if_neg hp, List.find?_cons_of_neg _ (by simp [hp])]
      apply ih
      simpa [List.any_cons, hp] using h

theorem find?_map_replace_ne (m : List (Option Yval × ContentItem))
    (k k' : Option Yval) (v : ContentItem) (hne : k' ≠ k) :
    (m.map (fun p => if p.1 = k then (k, v) else p)).find?
      (fun q => q.1 = k') = m.find? (fun q => q.1 = k') := by
  induction m with
  | nil => rfl
  | cons p ps ih =>
    rw [List.map_cons]
    by_cases hp : p.1 = k
    · rw [if_pos hp,
        List.find?_cons_of_neg _ (by simp; exact Ne.symm hne),
        List.find?_cons_of_neg _ (by simp [hp]; exact Ne.symm hne)]
      exact ih
    · rw [if_neg hp]
      by_cases hq : p.1 = k'
      · rw [List.find?_cons_of_pos _ (by simp [hq]),
          List.find?_cons_of_pos _ (by simp [hq])]
      · rw [List.find?_cons_of_neg _ (by simp [hq]),
          List.find?_cons_of_neg _ (by simp [hq])]
        exact ih

theorem mapGet_set_self (m : List (Option Yval × ContentItem))
    (k : Option Yval) (v : ContentItem) :
    mapGet (mapSet m k v) k = some v := by
  unfold mapSet
  by_cases ha : m.any (fun p => p.1 = k) = true
  · rw [if_pos ha]
    unfold mapGet
    rw [find?_map_replace m k v ha]
    rfl
  · rw [if_neg ha]
    unfold mapGet
    rw [List.find?_append]
    have h1 : m.find? (fun q => q.1 = k) = none := by
      rw [List.find?_eq_none]
      intro x hx
      have h2 := List.any_eq_false.1 (bool_eq_false ha) x hx
      simpa using h2
    rw [h1, Option.none_or, List.find?_cons_of_pos _ (by simp)]
    rfl

theorem mapGet_set_ne (m : List (Option Yval × ContentItem))
    (k k' : Option Yval) (v : ContentItem) (hne : k' ≠ k) :
    mapGet (mapSet m k v) k' = mapGet m k' := by
  unfold mapSet mapGet
  by_cases ha : m.any (fun p => p.1 = k) = true
  · rw [if_pos ha, find?_map_replace_ne m k k' v hne]
  · rw [if_neg ha, List.find?_append]
    have h2 : ([(k, v)]).find? (fun q => q.1 = k') = none := by
      rw [List.find?_eq_none]
      intro x hx
      simp at hx
      simp [hx, Ne.symm hne]
    rw [h2, Option.or_none]

theorem foldl_set_lookup (l : List ContentItem) :
    ∀ (acc : List (Option Yval × ContentItem)) (k : Option Yval),
      mapGet (l.foldl (fun m it => mapSet m it.slug it) acc) k =
        ((l.filter (fun it => it.slug = k)).getLast?).or (mapGet acc k) := by
  induction l with
  | nil => intro acc k; simp
  | cons it l' ih =>
    intro acc k
    rw [List.foldl_cons, ih]
    by_cases hk : it.slug = k
    · subst hk
      rw [mapGet_set_self, List.filter_cons_of_pos (by simp)]
      cases hF : l'.filter (fun x => x.slug = it.slug) with
      | nil => simp
      | cons x xs =>
        cases hg : (x :: xs).getLast? with
        | none => simp at hg
        | some a => simp [hg]
    · rw [List.filter_cons_of_neg (by simp [hk]),
        mapGet_set_ne acc it.slug k it (fun hh => hk hh.symm)]

theorem buildIndex_lookup (l : List ContentItem) (k : Option Yval) :
    mapGet (buildIndex l) k =
      (l.filter (fun it => it.slug = k)).getLast? := by
  rw [buildIndex, foldl_set_lookup]
  simp [mapGet]

theorem mapSet_keys_replace (m : List (Option Yval × ContentItem))
    (k : Option Yval) (v : ContentItem)
    (h : m.any (fun p => p.1 = k) = true) :
    (mapSet m k v).map Prod.fst = m.map Prod.fst := by
  unfold mapSet
  rw [if_pos h, List.map_map]
  apply List.map_congr_left
  intro p _
  by_cases hp : p.1 = k
  · simp [hp]
  · simp [hp]

theorem mapSet_keys_append (m : List (Option Yval × ContentItem))
    (k : Option Yval) (v : ContentItem)
    (h : m.any (fun p => p.1 = k) = false) :
    (mapSet m k v).map Prod.fst = m.map Prod.fst ++ [k] := by
  unfold mapSet
  rw [if_neg (by simp [h]), List.map_append]
  rfl

theorem foldl_set_keys_mem (l : List ContentItem) :
    ∀ (acc : List (Option Yval × ContentItem)) (k : Option Yval),
      (k ∈ (l.foldl (fun m it => mapSet m it.slug it) acc).map Prod.fst)
        ↔ k ∈ acc.map Prod.fst ∨ k ∈ l.map (fun it => it.slug) := by
  induction l with
  | nil => intro acc k; simp
  | cons it l' ih =>
    intro acc k
    rw [List.foldl_cons, ih]
    by_cases ha : acc.any (fun p => p.1 = it.slug) = true
    · rw [mapSet_keys_replace acc it.slug it ha]
      have hmem : it.slug ∈ acc.map Prod.fst := by
        rw [List.any_eq_true] at ha
        obtain ⟨p, hp, he⟩ := ha
        simp only [decide_eq_true_eq] at he
        exact he ▸ List.mem_map_of_mem Prod.fst hp
      simp only [List.map_cons, List.mem_cons]
      constructor
      · rintro (h | h)
        · exact Or.inl h
        · exact Or.inr (Or.inr h)
      · rintro (h | h | h)
        · exact Or.inl h
        · exact Or.inl (h ▸ hmem)
        · exact Or.inr h
    · rw [mapSet_keys_append acc it.slug it (bool_eq_false ha)]
      simp only [List.mem_append, List.map_cons, List.mem_cons,
        List.mem_singleton]
      tauto

theorem foldl_set_keys_nodup (l : List ContentItem) :
    ∀ (acc : List (Option Yval × ContentItem)),
      (acc.map Prod.fst).Nodup →
      ((l.foldl (fun m it => mapSet m it.slug it) acc).map Prod.fst).Nodup := by
  induction l with
  | nil => intro acc h; simpa using h
  | cons it l' ih =>
    intro acc h
    rw [List.foldl_cons]
    apply ih
    by_cases ha : acc.any (fun p => p.1 = it.slug) = true
    · rwa [mapSet_keys_replace acc it.slug it ha]
    · rw [mapSet_keys_append acc it.slug it (bool_eq_false ha)]
      have hnm : it.slug ∉ acc.map Prod.fst := by
        intro hmem
        rw [List.mem_map] at hmem
        obtain ⟨p, hp, he⟩ := hmem
        have h3 := List.any_eq_false.1 (bool_eq_false ha) p hp
        simp [he] at h3
      simp [List.nodup_append, h, hnm]

theorem foldl_set_fresh (l : List ContentItem) :
    ∀ (acc : List (Option Yval × ContentItem)),
      (∀ it ∈ l, ∀ p ∈ acc, p.1 ≠ it.slug) →
      (l.map (fun it => it.slug)).Nodup →
      l.foldl (fun m it => mapSet m it.slug it) acc
        = acc ++ l.map (fun it => (it.slug, it)) := by
  induction l with
  | nil => intro acc _ _; simp
  | cons it l' ih =>
    intro acc hfresh hnd
    simp only [List.map_cons] at hnd
    have hnd' := List.nodup_cons.1 hnd
    rw [List.foldl_cons,
      mapSet_fresh acc it.slug it (fun p hp => hfresh it (by simp) p hp),
      ih (acc ++ [(it.slug, it)]) ?_ hnd'.2]
    · simp
    · intro it' hit' p hp
      rcases List.mem_append.1 hp with hin | hin
      · exact hfresh it' (List.mem_cons_of_mem _ hit') p hin
      · have hps : p = (it.slug, it) := by simpa using hin
        rw [hps]
        intro hcontra
        simp only at hcontra
        exact hnd'.1
          (by rw [hcontra]; exact List.mem_map_of_mem (fun x => x.slug) hit')

/-- Test item: slug `a`, created 2025-01-01. -/
def itemW1 : ContentItem :=
  ⟨none, some (Yval.str "a".toList), none,
    some (Yval.str "2025-01-01T00:00:00.000Z".toList), none, none, none⟩

/-- Test item: slug `b`, created 2025-01-02. -/
def itemW2 : ContentItem :=
  ⟨none, some (Yval.str "b".toList), none,
    some (Yval.str "2025-01-02T00:00:00.000Z".toList), none, none, none⟩

/-- Test item: slug `a` again (duplicate), created 2025-01-03. -/
def itemW3 : ContentItem :=
  ⟨none, some (Yval.str "a".toList), none,
    some (Yval.str "2025-01-03T00:00:00.000Z".toList), none, none, none⟩

/-- C4 (amended): for parsed items with pairwise-distinct slugs (and any
total date valuation of their `createdAt` fields), sorting then indexing
yields a map whose iteration order is non-decreasing by the date value of
`createdAt`, and whose reversed iteration order is non-increasing. -/
theorem sortAndIndex_nodup_sorted (dv : Option Yval → Int)
    (items : List ContentItem)
    (h : (items.map (fun it => it.slug)).Nodup) :
    ((sortAndIndex dv items).map
      (fun p => dv p.2.createdAt)).Pairwise (· ≤ ·) ∧
    (((sortAndIndex dv items).map
      (fun p => dv p.2.createdAt)).reverse).Pairwise (· ≥ ·) := by
  have hperm : List.Perm (items.mergeSort (sortKey dv)) items :=
    List.mergeSort_perm items _
  have hnd : ((items.mergeSort (sortKey dv)).map
      (fun it => it.slug)).Nodup :=
    ((hperm.map (fun it => it.slug)).nodup_iff).2 h
  have hb : buildIndex (items.mergeSort (sortKey dv))
      = (items.mergeSort (sortKey dv)).map (fun it => (it.slug, it)) := by
    have hf := foldl_set_fresh (items.mergeSort (sortKey dv)) []
      (by simp) hnd
    simpa [buildIndex] using hf
  have hsorted : (items.mergeSort (sortKey dv)).Pairwise
      (fun a b => sortKey dv a b) :=
    List.sorted_mergeSort
      (fun a b c hab hbc => by
        simp only [sortKey, decide_eq_true_eq] at hab hbc ⊢
        exact le_trans hab hbc)
      (fun a b => by
        simp only [sortKey]
        rcases le_total (dv a.createdAt) (dv b.createdAt) with hle | hle <;>
          simp [hle])
      items
  have hmain : ((sortAndIndex dv items).map
      (fun p => dv p.2.createdAt)).Pairwise (· ≤ ·) := by
    unfold sortAndIndex
    rw [hb, List.map_map, List.pairwise_map]
    apply hsorted.imp
    intro a b hab
    simpa [sortKey] using hab
  refine ⟨hmain, ?_⟩
  rw [List.pairwise_reverse]
  exact hmain

/-- Witness for C4 (amended): two items with distinct slugs. -/
theorem sortAndIndex_nodup_sorted_inst :
    (([itemW1, itemW2].map (fun it => it.slug)).Nodup) ∧
    ((sortAndIndex dvModel [itemW1, itemW2]).map
      (fun p => dvModel p.2.createdAt)).Pairwise (· ≤ ·) :=
  ⟨by decide,
    (sortAndIndex_nodup_sorted dvModel [itemW1, itemW2] (by decide)).1⟩

/-- C4 (counterexample): three items with valid dates but a duplicated slug.
JS `Map.set` keeps a replaced key at its original position, so inserting the
sorted items `a@01, b@02, a@03` leaves key `a` first holding the item dated
`03`, and the iteration order `03, 02` is not non-decreasing. -/
theorem sortAndIndex_duplicate_slug_unsorted :
    ¬ (((sortAndIndex dvModel [itemW1, itemW2, itemW3]).map
        (fun p => dvModel p.2.createdAt)).Pairwise (· ≤ ·)) := by
  have hs : ([itemW1, itemW2, itemW3]).mergeSort (sortKey dvModel)
      = [itemW1, itemW2, itemW3] :=
    List.mergeSort_of_sorted (by decide)
  unfold sortAndIndex
  rw [hs]
  decide

theorem parseAll_length (yaml : YamlParser) :
    ∀ (files : List Str) (items : List ContentItem),
      parseAll yaml files = .ok items → items.length = files.length := by
  intro files
  induction files with
  | nil =>
    intro items h
    simp only [parseAll] at h
    injection h with h2
    rw [← h2]
    rfl
  | cons f fs ih =>
    intro items h
    simp only [parseAll] at h
    cases hp : parseContent yaml f with
    | error e => rw [hp] at h; cases h
    | ok it =>
      rw [hp] at h
      cases hq : parseAll yaml fs with
      | error e => rw [hq] at h; cases h
      | ok its =>
        rw [hq] at h
        injection h with h2
        rw [← h2]
        simp [ih its hq]

/-- C6: for well-formed content files (the spec's data-model invariant makes
slugs unique across items), `loadContents` parses all files and produces the
index of the sorted items; the index's size equals the number of input files
whenever the parsed slugs are pairwise distinct; its key set is exactly the
set of slugs occurring in the items (and the keys carry no duplicates); and
looking up any key returns the *last* item with that slug in sorted
insertion order — so when two files share a slug, the later-inserted item
has silently replaced the earlier one. -/
theorem loadContents_index_spec (yaml : YamlParser) (dv : Option Yval → Int)
    (files : List Str) (items : List ContentItem)
    (hp : parseAll yaml files = .ok items) :
    loadContents yaml dv files = .ok (sortAndIndex dv items) ∧
    ((items.map (fun it => it.slug)).Nodup →
      (sortAndIndex dv items).length = files.length) ∧
    (∀ k, k ∈ (sortAndIndex dv items).map Prod.fst ↔
      k ∈ items.map (fun it => it.slug)) ∧
    ((sortAndIndex dv items).map Prod.fst).Nodup ∧
    (∀ k, mapGet (sortAndIndex dv items) k =
      ((items.mergeSort (sortKey dv)).filter
        (fun it => it.slug = k)).getLast?) := by
  have hperm : List.Perm (items.mergeSort (sortKey dv)) items :=
    List.mergeSort_perm items _
  refine ⟨?_, ?_, ?_, ?_, ?_⟩
  · unfold loadContents
    rw [hp]
  · intro hnd
    have hnd' : ((items.mergeSort (sortKey dv)).map
        (fun it => it.slug)).Nodup :=
      ((hperm.map (fun it => it.slug)).nodup_iff).2 hnd
    have hb := foldl_set_fresh (items.mergeSort (sortKey dv)) []
      (by simp) hnd'
    unfold sortAndIndex buildIndex
    rw [hb]
    simp [parseAll_length yaml files items hp]
  · intro k
    unfold sortAndIndex buildIndex
    rw [foldl_set_keys_mem (items.mergeSort (sortKey dv)) [] k]
    simp only [List.map_nil, List.not_mem_nil, false_or]
    exact (hperm.map (fun it => it.slug)).mem_iff
  · unfold sortAndIndex buildIndex
    exact foldl_set_keys_nodup _ [] (by simp)
  · intro k
    unfold sortAndIndex
    exact buildIndex_lookup _ k

/-- Test content file: slug `s1`, created 2025-01-01 (fence line `h` above,
`f` below the front-matter keys). -/
def fileC1 : Str :=
  "h\ntitle: t1\nslug: s1\ncreatedAt: 2025-01-01T00:00:00.000Z\nf\n%%split%%\nbodyone".toList

/-- Test content file: slug `s2`, created 2025-01-02. -/
def fileC2 : Str :=
  "h\ntitle: t2\nslug: s2\ncreatedAt: 2025-01-02T00:00:00.000Z\nf\n%%split%%\nbodytwo".toList

/-- The item `fileC1` parses to. -/
def itemC1 : ContentItem :=
  mkItem [("title".toList, Yval.str "t1".toList),
    ("slug".toList, Yval.str "s1".toList),
    ("createdAt".toList, Yval.str "2025-01-01T00:00:00.000Z".toList)]
    (some "bodyone".toList)

/-- The item `fileC2` parses to. -/
def itemC2 : ContentItem :=
  mkItem [("title".toList, Yval.str "t2".toList),
    ("slug".toList, Yval.str "s2".toList),
    ("createdAt".toList, Yval.str "2025-01-02T00:00:00.000Z".toList)]
    (some "bodytwo".toList)

/-- Witness for C6: two concrete well-formed files with distinct slugs parse
to two items, and the resulting index has exactly two entries. -/
theorem loadContents_index_spec_inst :
    parseAll yamlLines [fileC1, fileC2] = .ok [itemC1, itemC2] ∧
    ([itemC1, itemC2].map (fun it => it.slug)).Nodup ∧
    (sortAndIndex dvModel [itemC1, itemC2]).length = [fileC1, fileC2].length := by
  have h := loadContents_index_spec yamlLines dvModel [fileC1, fileC2]
    [itemC1, itemC2] rfl
  exact ⟨rfl, by decide, h.2.1 (by decide)⟩
